import Mathlib

/-!
Verification of the dgraph-admin client (src/main.rs).

The development shallowly embeds the pure logic of the program: URL
normalization (`Dgraph.new` over a model of the `url` crate's WHATWG
parser), auth-header injection (`Dgraph.add_auth_header` over a model of
`ureq` request headers), the error branch of the GraphQL exchange
(`Dgraph.queryResult`), the alter response check (`Dgraph.alter`), schema
rendering (`GetSchema.render`), health-record decoding (a model of the
derived serde decoder) and uptime formatting (a model of
`humantime::format_duration` for whole-second durations).

Model scope for the `url` crate: the parser below covers absolute URLs
whose authority is a lowercase reg-name host (ASCII lowercase letters,
digits, '.', '-', '_'; no userinfo, no IPv6 or IPv4 canonicalization, no
percent-encoding, no whitespace stripping, no host case-folding) with an
optional decimal port; special-scheme (http/https) URLs get an authority,
every other scheme yields a cannot-be-a-base URL with a raw path, as on
the inputs exercised here; strings outside this fragment are rejected by
the model even where rust-url would accept them.
-/

namespace DgraphAdmin

/-- Splits a character list at the first occurrence of `c`: returns the
characters strictly before the first `c` and, when `c` occurs, the
characters strictly after it.  This is the common primitive behind
`str::split_once` and the left-to-right scanning of the URL parser. -/
def splitAtFirst (c : Char) : List Char → List Char × Option (List Char)
  | [] => ([], none)
  | x :: xs =>
    if x = c then ([], some xs)
    else
      let r := splitAtFirst c xs
      (x :: r.1, r.2)

/-- Splits an authority-and-path remainder at the first '/' or '\':
everything before is the authority, the rest (starting with the
delimiter, if any) is the path remainder.  In special URLs the WHATWG
parser treats '\' like '/'. -/
def splitAuthority : List Char → List Char × List Char
  | [] => ([], [])
  | x :: xs =>
    if x = '/' ∨ x = '\\' then ([], x :: xs)
    else
      let r := splitAuthority xs
      (x :: r.1, r.2)

/-- The slash characters the special-scheme parser skips and stops at
('\' is treated like '/' in special URLs). -/
def isSlash (c : Char) : Bool :=
  c = '/' || c = '\\'

/-- Characters allowed after the first character of a URL scheme
(WHATWG: ASCII alphanumeric, '+', '-', '.'). -/
def schemeChar (c : Char) : Bool :=
  c.isAlphanum || c = '+' || c = '-' || c = '.'

/-- Host characters covered by the model: lowercase reg-name characters. -/
def hostChar (c : Char) : Bool :=
  c.isLower || c.isDigit || c = '.' || c = '-' || c = '_'

/-- The last dot-separated label of a host. -/
def lastLabel (cs : List Char) : List Char :=
  ((cs.reverse.takeWhile (fun c => c ≠ '.')).reverse)

/-- Host validity in the model: nonempty, made of `hostChar` characters,
and the final label is not purely numeric (an all-digit final label makes
the WHATWG parser treat the host as an IPv4 address, which this model
does not cover). -/
def validHost (cs : List Char) : Bool :=
  !cs.isEmpty && cs.all hostChar &&
    !(!(lastLabel cs).isEmpty && (lastLabel cs).all Char.isDigit)

/-- Numeric value of a digit string, most significant digit first. -/
def digitsToNat (cs : List Char) : Nat :=
  cs.foldl (fun n c => n * 10 + (c.toNat - 48)) 0

/-- Fuel-driven decimal rendering of a natural number (most significant
digit first, accumulator style), mirroring how the port is re-serialized
in decimal. -/
def natDigitsAux : Nat → Nat → List Char → List Char
  | 0, _, acc => acc
  | fuel + 1, n, acc =>
    if n < 10 then Char.ofNat (48 + n) :: acc
    else natDigitsAux fuel (n / 10) (Char.ofNat (48 + n % 10) :: acc)

/-- Decimal digits of a natural number. -/
def natDigits (n : Nat) : List Char :=
  natDigitsAux (n + 1) n []

/-- Default port of the special schemes (WHATWG); a parsed port equal to
the scheme's default is dropped. -/
def defaultPort : String → Option Nat
  | "http" => some 80
  | "https" => some 443
  | _ => none

/-- A parsed URL as the model keeps it: the serialization-relevant fields
of `url::Url`. -/
structure Url where
  scheme : String
  host : String
  port : Option Nat
  path : String
  query : Option String
  fragment : Option String
  cannotBeABase : Bool
deriving DecidableEq

/-- Builds the special-scheme (http/https) URL record from parsed parts. -/
def mkUrl (scheme : String) (hostC : List Char) (port : Option Nat)
    (pathRest : List Char) (query frag : Option (List Char)) : Url :=
  { scheme := scheme
    host := String.mk hostC
    port := port
    path :=
      if pathRest = [] then "/"
      else String.mk (pathRest.map (fun c => if c = '\\' then '/' else c))
    query := query.map (fun q => String.mk q)
    fragment := frag.map (fun f => String.mk f)
    cannotBeABase := false }

/-- Authority parsing for the special schemes http and https: fragment,
then query, are cut off at their first markers; leading slashes (and
backslashes) are skipped; the authority runs to the next slash; the host
is everything before the first ':' of the authority and the port is the
decimal value after it (empty port allowed, value below 2^16, a default
port is dropped).  Userinfo ('@' in the authority) is outside the model. -/
def parseSpecial (scheme : String) (rest : List Char) : Option Url :=
  let pf := splitAtFirst '#' rest
  let pq := splitAtFirst '?' pf.1
  let afterSlashes := pq.1.dropWhile isSlash
  let ap := splitAuthority afterSlashes
  if '@' ∈ ap.1 then none
  else
    let hp := splitAtFirst ':' ap.1
    if validHost hp.1 = true then
      match hp.2 with
      | none => some (mkUrl scheme hp.1 none ap.2 pq.2 pf.2)
      | some pc =>
        if pc = [] then some (mkUrl scheme hp.1 none ap.2 pq.2 pf.2)
        else if pc.all Char.isDigit = true then
          if digitsToNat pc < 65536 then
            some (mkUrl scheme hp.1
              (if defaultPort scheme = some (digitsToNat pc) then none
               else some (digitsToNat pc))
              ap.2 pq.2 pf.2)
          else none
        else none
    else none

/-- Model of `Url::parse` on the covered fragment.  A valid scheme (ASCII
letter, then scheme characters) must end at the first ':', otherwise the
input is a relative URL without a base and parsing fails.  The scheme is
lowercased.  http/https parse an authority; any other scheme yields a
cannot-be-a-base URL whose path is the raw remainder up to the query or
fragment markers (non-special authority forms starting with "//" are
outside the model). -/
def Url.parseList (cs : List Char) : Option Url :=
  let sp := splitAtFirst ':' cs
  match sp.2 with
  | none => none
  | some rest =>
    match sp.1 with
    | [] => none
    | c0 :: cs0 =>
      if c0.isAlpha = true ∧ (c0 :: cs0).all schemeChar = true then
        let scheme : String := String.mk ((c0 :: cs0).map Char.toLower)
        if scheme = "http" ∨ scheme = "https" then
          parseSpecial scheme rest
        else
          match rest with
          | '/' :: '/' :: _ => none
          | _ =>
            let pf := splitAtFirst '#' rest
            let pq := splitAtFirst '?' pf.1
            some { scheme := scheme
                   host := ""
                   port := none
                   path := String.mk pq.1
                   query := pq.2.map (fun q => String.mk q)
                   fragment := pf.2.map (fun f => String.mk f)
                   cannotBeABase := true }
      else none

/-- Model of `Url::parse` on strings. -/
def Url.parse (s : String) : Option Url :=
  Url.parseList s.data

/-- Model of `Url::set_path` for the inputs used by the program: clearing
the path of a special URL leaves the serialized path "/", and on a
cannot-be-a-base URL the setter is a no-op.  (Nonempty arguments are not
used by the program; the model stores them as given.) -/
def Url.set_path (u : Url) (p : String) : Url :=
  if p = "" then
    { u with path := if u.cannotBeABase then u.path else "/" }
  else
    { u with path := p }

/-- Model of `Url::to_string`: scheme, authority (host and optional
decimal port) for URLs that have one, then path, query and fragment. -/
def Url.toString (u : Url) : String :=
  let portStr : String :=
    match u.port with
    | some p => String.mk (':' :: natDigits p)
    | none => ""
  let queryStr : String :=
    match u.query with
    | some q => "?" ++ q
    | none => ""
  let fragStr : String :=
    match u.fragment with
    | some f => "#" ++ f
    | none => ""
  if u.cannotBeABase then
    u.scheme ++ ":" ++ u.path ++ queryStr ++ fragStr
  else
    u.scheme ++ "://" ++ u.host ++ portStr ++ u.path ++ queryStr ++ fragStr

/-- The client configuration (struct `Dgraph` in src/main.rs). -/
structure Dgraph where
  base_url : String
  auth_header : Option String
deriving DecidableEq

/-- `Dgraph::new` (src/main.rs lines 37-55): parse the url (a parse
failure propagates via `?`); if the parsed scheme is neither http nor
https, re-parse with "http://" prepended to the original string (failure
of the retry propagates); then clear the path and keep the serialized
URL as `base_url`. -/
def Dgraph.new (url : String) (auth_header : Option String) : Option Dgraph :=
  match Url.parse url with
  | none => none
  | some parsed =>
    match
      (if parsed.scheme = "http" ∨ parsed.scheme = "https" then some parsed
       else Url.parse ("http://" ++ url)) with
    | none => none
    | some parsed2 =>
      some { base_url := (parsed2.set_path "").toString
             auth_header := auth_header }

/-- Model of `str::split_once`: the pieces strictly before and after the
first occurrence of `c`, if `c` occurs. -/
def splitOnce (s : String) (c : Char) : Option (String × String) :=
  match (splitAtFirst c s.data).2 with
  | none => none
  | some post => some (String.mk (splitAtFirst c s.data).1, String.mk post)

/-- An outbound request as the model keeps it: target URL and the list of
headers set on it, in order. -/
structure Request where
  url : String
  headers : List (String × String)
deriving DecidableEq

/-- Model of `ureq::Request::set`: record the header key/value on the
request. -/
def Request.set (req : Request) (key value : String) : Request :=
  { req with headers := req.headers ++ [(key, value)] }

/-- `Dgraph::add_auth_header` (src/main.rs lines 57-64): when an auth
string is configured and contains a colon, split it once on the first
colon and set that header; otherwise return the request unchanged. -/
def Dgraph.add_auth_header (d : Dgraph) (req : Request) : Request :=
  match d.auth_header with
  | some ah =>
    match splitOnce ah ':' with
    | some kv => req.set kv.1 kv.2
    | none => req
  | none => req

/-- `Dgraph::post` (src/main.rs lines 66-69): plain string concatenation
of `base_url` and the endpoint, then auth-header injection. -/
def Dgraph.post (d : Dgraph) (endpoint : String) : Request :=
  d.add_auth_header { url := d.base_url ++ endpoint, headers := [] }

/-- `Dgraph::get` (src/main.rs lines 71-74). -/
def Dgraph.get (d : Dgraph) (endpoint : String) : Request :=
  d.add_auth_header { url := d.base_url ++ endpoint, headers := [] }

/-- One entry of the GraphQL errors array (struct `GqlError`). -/
structure GqlError where
  message : String
deriving DecidableEq

/-- The inbound GraphQL envelope (struct `GqlResponse`): serde maps an
absent or null field to `none` and a present value to `some`. -/
structure GqlResponse (Data : Type) where
  data : Option Data
  errors : Option (List GqlError)

/-- The decision step of `Dgraph::query` (src/main.rs lines 86-92) on the
deserialized envelope: when the errors field deserialized to `Some`, fail
with the error list (the code renders this very list, in order, with the
pretty debug formatter); otherwise succeed with `data`.  The error value
here is the ordered list of messages the failure carries. -/
def Dgraph.queryResult {Data : Type} (resp : GqlResponse Data) :
    Except (List String) (Option Data) :=
  match resp.errors with
  | some errors => Except.error (errors.map GqlError.message)
  | none => Except.ok resp.data

/-- The exact body `Dgraph::alter` accepts (src/main.rs line 100). -/
def expectedAlterBody : String :=
  "\x7b\"data\":\x7b\"code\":\"Success\",\"message\":\"Done\"\x7d\x7d"

/-- The response check of `Dgraph::alter` (src/main.rs lines 95-105) on
the response body already read as a string: any body other than the
expected literal fails, carrying that body (the code wraps it as
"unexpected response: {body:?}"). -/
def Dgraph.alter (resp : String) : Except String Unit :=
  if resp ≠ expectedAlterBody then Except.error resp else Except.ok ()

/-- JSON values as the model keeps them (numbers restricted to integers,
which covers every number the program consumes). -/
inductive Json where
  | null
  | bool (b : Bool)
  | num (n : Int)
  | str (s : String)
  | arr (xs : List Json)
  | obj (fields : List (String × Json))

/-- Model of `serde_json::Value` immutable indexing: member of an object,
`null` on a missing member or a non-object. -/
def Json.get : Json → String → Json
  | Json.obj fields, key => (List.lookup key fields).getD Json.null
  | _, _ => Json.null

/-- Model of `Value::as_str`. -/
def Json.asStr : Json → Option String
  | Json.str s => some s
  | _ => none

/-- Model of `str::trim`: drop whitespace characters from both ends (the
ASCII whitespace fragment of Rust's `char::is_whitespace`). -/
def rustTrim (s : String) : String :=
  String.mk (((s.data.dropWhile Char.isWhitespace).reverse.dropWhile
    Char.isWhitespace).reverse)

/-- The printing decision of `GetSchema::exec` (src/main.rs lines
151-163) on the returned data value: read
`data["getGQLSchema"]["schema"]` as a string (empty string when null or
not a string), trim it, and print "no schema" when the result is empty,
the trimmed schema text otherwise. -/
def GetSchema.render (data : Json) : String :=
  let schema := rustTrim (((data.get "getGQLSchema").get "schema").asStr.getD "")
  if schema = "" then "no schema" else schema

/-- One health record (struct `HealthResponse`): only the fields the tool
consumes. -/
structure HealthResponse where
  address : String
  status : String
  uptime : Nat
deriving DecidableEq

/-- Model of the derived serde decoder for `HealthResponse`: the three
modeled fields must be present with the right types (`uptime` a u64), any
other field of the object is ignored.  (Duplicate occurrences of a
modeled key, an error in serde, are outside the model: the first
occurrence wins here.) -/
def HealthResponse.fromJson (j : Json) : Option HealthResponse :=
  match j with
  | Json.obj fields =>
    match List.lookup "address" fields, List.lookup "status" fields,
        List.lookup "uptime" fields with
    | some (Json.str a), some (Json.str s), some (Json.num n) =>
      if 0 ≤ n ∧ n < (2 : Int) ^ 64 then
        some { address := a, status := s, uptime := n.toNat }
      else none
    | _, _, _ => none
  | _ => none

/-- Element-wise decoding of a JSON list of health records; any element
failure fails the whole decode, as for `Vec<HealthResponse>`. -/
def decodeHealthList : List Json → Option (List HealthResponse)
  | [] => some []
  | j :: js =>
    match HealthResponse.fromJson j, decodeHealthList js with
    | some h, some hs => some (h :: hs)
    | _, _ => none

/-- Model of deserializing the health body into `Vec<HealthResponse>`. -/
def healthVecFromJson (j : Json) : Option (List HealthResponse) :=
  match j with
  | Json.arr xs => decodeHealthList xs
  | _ => none

/-- One component of `humantime::format_duration`: skip a zero value,
otherwise append a space (when something was already written), the
decimal value and the unit name. -/
def pushItem (acc : Bool × String) (value : Nat) (name : String) :
    Bool × String :=
  if value = 0 then acc
  else (true, acc.2 ++ (if acc.1 then " " else "") ++ String.mk (natDigits value) ++ name)

/-- The pluralizing variant used for years, months and days. -/
def pushItemPlural (acc : Bool × String) (value : Nat) (name : String) :
    Bool × String :=
  pushItem acc value (name ++ (if 1 < value then "s" else ""))

/-- Model of `humantime::format_duration` on whole-second durations (the
program always passes zero nanoseconds, so the millisecond and finer
items are always skipped). -/
def formatDuration (secs : Nat) : String :=
  if secs = 0 then "0s"
  else
    let years := secs / 31557600
    let ydays := secs % 31557600
    let months := ydays / 2630016
    let mdays := ydays % 2630016
    let days := mdays / 86400
    let daySecs := mdays % 86400
    let hours := daySecs / 3600
    let minutes := daySecs % 3600 / 60
    let seconds := daySecs % 60
    let acc := pushItemPlural (false, "") years "year"
    let acc := pushItemPlural acc months "month"
    let acc := pushItemPlural acc days "day"
    let acc := pushItem acc hours "h"
    let acc := pushItem acc minutes "m"
    let acc := pushItem acc seconds "s"
    acc.2

/-- The hours/minutes/seconds rendering alone, with the same item
conventions. -/
def hmsOnly (secs : Nat) : String :=
  (pushItem
    (pushItem
      (pushItem (false, "") (secs / 3600) "h")
      (secs % 3600 / 60) "m")
    (secs % 60) "s").2

/-- The output line of `GetHealth::exec` for one record (src/main.rs
lines 216-221). -/
def healthLine (h : HealthResponse) : String :=
  h.address ++ " is " ++ h.status ++ ", uptime: " ++ formatDuration h.uptime

/-- The output of `GetHealth::exec` on a decoded body: one line per
record, `none` when the body does not decode. -/
def GetHealth.output (body : Json) : Option (List String) :=
  (healthVecFromJson body).map (fun hs => hs.map healthLine)

theorem string_data_append (s t : String) : (s ++ t).data = s.data ++ t.data := rfl

theorem string_mk_data (l : List Char) : (String.mk l).data = l := rfl

theorem string_eq_of_data {s t : String} (h : s.data = t.data) : s = t :=
  String.ext h

theorem splitAtFirst_eq_of_not_mem {c : Char} {cs : List Char} (h : c ∉ cs) :
    splitAtFirst c cs = (cs, none) := by
  induction cs with
  | nil => rfl
  | cons x xs ih =>
    have hx : ¬ x = c := fun e => h (e ▸ List.mem_cons_self x xs)
    have hxs : c ∉ xs := fun m => h (List.mem_cons_of_mem _ m)
    simp only [splitAtFirst, if_neg hx, ih hxs]

theorem splitAtFirst_append {c : Char} (xs ys : List Char) (h : c ∉ xs) :
    splitAtFirst c (xs ++ c :: ys) = (xs, some ys) := by
  induction xs with
  | nil => simp [splitAtFirst]
  | cons x xs ih =>
    have hx : ¬ x = c := fun e => h (e ▸ List.mem_cons_self x xs)
    have hxs : c ∉ xs := fun m => h (List.mem_cons_of_mem _ m)
    simp only [List.cons_append, splitAtFirst, if_neg hx, List.append_eq]
    rw [ih hxs]

theorem splitAtFirst_some {c : Char} {cs pre post : List Char}
    (h : splitAtFirst c cs = (pre, some post)) :
    cs = pre ++ c :: post ∧ c ∉ pre := by
  induction cs generalizing pre with
  | nil => simp [splitAtFirst] at h
  | cons x xs ih =>
    by_cases hx : x = c
    · have he : splitAtFirst c (x :: xs) = (([] : List Char), some xs) := by
        simp [splitAtFirst, hx]
      rw [he] at h
      have h1 : pre = [] := by
        have h' := congrArg Prod.fst h
        simpa using h'.symm
      have h2 : post = xs := by
        have h' := congrArg Prod.snd h
        simpa using h'.symm
      subst h1; subst h2
      simp [hx]
    · rcases hsp : splitAtFirst c xs with ⟨p1, p2⟩
      have he : splitAtFirst c (x :: xs) = (x :: p1, p2) := by
        simp only [splitAtFirst, if_neg hx]
        rw [hsp]
      rw [he] at h
      have h1 : pre = x :: p1 := by
        have h' := congrArg Prod.fst h
        simpa using h'.symm
      have h2 : p2 = some post := by
        have h' := congrArg Prod.snd h
        simpa using h'
      subst h1
      obtain ⟨hcs, hnotin⟩ := ih (by rw [hsp, h2])
      refine ⟨by rw [hcs]; simp, ?_⟩
      intro hmem
      rcases List.mem_cons.mp hmem with hh | hh
      · exact hx hh.symm
      · exact hnotin hh

theorem splitAuthority_append (xs ys : List Char)
    (hxs : ∀ x ∈ xs, ¬(x = '/' ∨ x = '\\'))
    (hys : ys = [] ∨ ∃ y l, ys = y :: l ∧ (y = '/' ∨ y = '\\')) :
    splitAuthority (xs ++ ys) = (xs, ys) := by
  induction xs with
  | nil =>
    rcases hys with rfl | ⟨y, l, rfl, hy⟩
    · rfl
    · simp [splitAuthority, hy]
  | cons x xs ih =>
    have hx := hxs x (List.mem_cons_self x xs)
    simp only [List.cons_append, splitAuthority, if_neg hx, List.append_eq]
    rw [ih (fun a ha => hxs a (List.mem_cons_of_mem _ ha))]

theorem digitChar_isDigit : ∀ d, d < 10 → (Char.ofNat (48 + d)).isDigit = true := by
  decide

theorem natDigitsAux_spec : ∀ (fuel n : Nat) (acc : List Char), n ≤ fuel →
    ∃ ds, natDigitsAux (fuel + 1) n acc = ds ++ acc ∧ ds ≠ [] ∧
      ∀ c ∈ ds, c.isDigit = true := by
  intro fuel
  induction fuel with
  | zero =>
    intro n acc hn
    have h0 : n = 0 := Nat.le_zero.mp hn
    subst h0
    refine ⟨[Char.ofNat 48], by simp [natDigitsAux], by simp, ?_⟩
    intro c hc
    rw [List.mem_singleton.mp hc]
    decide
  | succ f ih =>
    intro n acc hn
    by_cases h10 : n < 10
    · refine ⟨[Char.ofNat (48 + n)], by simp [natDigitsAux, h10], by simp, ?_⟩
      intro c hc
      rw [List.mem_singleton.mp hc]
      exact digitChar_isDigit n h10
    · have hrec : natDigitsAux (f + 1 + 1) n acc
          = natDigitsAux (f + 1) (n / 10) (Char.ofNat (48 + n % 10) :: acc) := by
        simp [natDigitsAux, h10]
      have hle : n / 10 ≤ f := by
        have h1 : n / 10 < n := Nat.div_lt_self (by omega) (by omega)
        omega
      obtain ⟨ds, hds, _, hdig⟩ := ih (n / 10) (Char.ofNat (48 + n % 10) :: acc) hle
      refine ⟨ds ++ [Char.ofNat (48 + n % 10)], ?_, by simp, ?_⟩
      · rw [hrec, hds]; simp
      · intro c hc
        rcases List.mem_append.mp hc with h | h
        · exact hdig c h
        · rw [List.mem_singleton.mp h]
          exact digitChar_isDigit _ (Nat.mod_lt _ (by omega))

theorem natDigits_spec (n : Nat) :
    natDigits n ≠ [] ∧ ∀ c ∈ natDigits n, c.isDigit = true := by
  obtain ⟨ds, hds, hne, hdig⟩ := natDigitsAux_spec n n [] le_rfl
  unfold natDigits
  rw [hds, List.append_nil]
  exact ⟨hne, hdig⟩

theorem validHost_spec {cs : List Char} (h : validHost cs = true) :
    cs ≠ [] ∧ ∀ c ∈ cs, hostChar c = true := by
  unfold validHost at h
  rw [Bool.and_eq_true, Bool.and_eq_true] at h
  obtain ⟨⟨h1, h2⟩, _⟩ := h
  constructor
  · intro hnil
    subst hnil
    simp at h1
  · intro c hc
    simpa using List.all_eq_true.mp h2 c hc

theorem hostChar_ne {c : Char} (h : hostChar c = true) :
    c ≠ '/' ∧ c ≠ '\\' ∧ c ≠ ':' ∧ c ≠ '@' ∧ c ≠ '?' ∧ c ≠ '#' := by
  refine ⟨?_, ?_, ?_, ?_, ?_, ?_⟩ <;> rintro rfl <;> exact absurd h (by decide)

theorem isDigit_ne {c : Char} (h : c.isDigit = true) :
    c ≠ '/' ∧ c ≠ '\\' ∧ c ≠ ':' ∧ c ≠ '@' ∧ c ≠ '?' ∧ c ≠ '#' := by
  refine ⟨?_, ?_, ?_, ?_, ?_, ?_⟩ <;> rintro rfl <;> exact absurd h (by decide)

theorem dropWhile_isSlash_slash (l : List Char) :
    List.dropWhile isSlash ('/' :: l) = List.dropWhile isSlash l := rfl

theorem dropWhile_isSlash_cons_false {c0 : Char} (cs0 : List Char)
    (h : isSlash c0 = false) :
    List.dropWhile isSlash (c0 :: cs0) = c0 :: cs0 := by
  simp [List.dropWhile_cons, h]

theorem mkUrl_shape {hostC : List Char} (scheme : String) (port : Option Nat)
    (pathRest : List Char) (hv : validHost hostC = true) :
    (mkUrl scheme hostC port pathRest none none).scheme = scheme ∧
    (mkUrl scheme hostC port pathRest none none).cannotBeABase = false ∧
    (mkUrl scheme hostC port pathRest none none).query = none ∧
    (mkUrl scheme hostC port pathRest none none).fragment = none ∧
    (mkUrl scheme hostC port pathRest none none).host.data ≠ [] ∧
    (∀ c ∈ (mkUrl scheme hostC port pathRest none none).host.data,
      hostChar c = true) ∧
    (mkUrl scheme hostC port pathRest none none).port = port := by
  obtain ⟨h1, h2⟩ := validHost_spec hv
  exact ⟨rfl, rfl, rfl, rfl, h1, h2, rfl⟩

/-- Everything a successful special-scheme authority parse guarantees
when the remainder carries no query and no fragment markers. -/
theorem parseSpecial_shape {scheme : String} {rest : List Char} {u : Url}
    (h : parseSpecial scheme rest = some u)
    (hq : '?' ∉ rest) (hf : '#' ∉ rest) :
    u.scheme = scheme ∧ u.cannotBeABase = false ∧ u.query = none ∧
    u.fragment = none ∧ u.host.data ≠ [] ∧
    (∀ c ∈ u.host.data, hostChar c = true) := by
  simp only [parseSpecial, splitAtFirst_eq_of_not_mem hf,
    splitAtFirst_eq_of_not_mem hq] at h
  rcases hap : splitAuthority (rest.dropWhile isSlash)
    with ⟨auth, pathRest⟩
  rw [hap] at h
  dsimp only at h
  split at h
  · simp at h
  · rcases hhp : splitAtFirst ':' auth with ⟨hostC, portC⟩
    rw [hhp] at h
    dsimp only at h
    split at h
    case isTrue hv =>
      rcases portC with _ | pc
      · obtain rfl := Option.some.inj h
        obtain ⟨g1, g2, g3, g4, g5, g6, _⟩ := mkUrl_shape scheme none pathRest hv
        exact ⟨g1, g2, g3, g4, g5, g6⟩
      · dsimp only at h
        split at h
        · obtain rfl := Option.some.inj h
          obtain ⟨g1, g2, g3, g4, g5, g6, _⟩ := mkUrl_shape scheme none pathRest hv
          exact ⟨g1, g2, g3, g4, g5, g6⟩
        · split at h
          · split at h
            · obtain rfl := Option.some.inj h
              obtain ⟨g1, g2, g3, g4, g5, g6, _⟩ := mkUrl_shape scheme _ pathRest hv
              exact ⟨g1, g2, g3, g4, g5, g6⟩
            · simp at h
          · simp at h
    case isFalse => simp at h

/-- A string starting with "http:" parses by handing the remainder to the
special-scheme parser. -/
theorem parseList_http (tail : List Char) :
    Url.parseList ('h' :: 't' :: 't' :: 'p' :: ':' :: tail)
      = parseSpecial "http" tail := rfl

/-- A string starting with "https:" parses by handing the remainder to
the special-scheme parser. -/
theorem parseList_https (tail : List Char) :
    Url.parseList ('h' :: 't' :: 't' :: 'p' :: 's' :: ':' :: tail)
      = parseSpecial "https" tail := rfl

/-- A successful parse whose scheme is http or https went through the
special-scheme parser, so it has an authority and, when the input has no
query or fragment markers, no query and no fragment. -/
theorem parseList_shape {cs : List Char} {u : Url}
    (h : Url.parseList cs = some u)
    (hsch : u.scheme = "http" ∨ u.scheme = "https")
    (hq : '?' ∉ cs) (hf : '#' ∉ cs) :
    u.cannotBeABase = false ∧ u.query = none ∧ u.fragment = none ∧
    u.host.data ≠ [] ∧ (∀ c ∈ u.host.data, hostChar c = true) := by
  unfold Url.parseList at h
  rcases hsp : splitAtFirst ':' cs with ⟨pre, rest?⟩
  rw [hsp] at h
  dsimp only at h
  rcases rest? with _ | rest
  · simp at h
  · rcases pre with _ | ⟨c0, cs0⟩
    · simp at h
    · dsimp only at h
      by_cases hok : c0.isAlpha = true ∧ (c0 :: cs0).all schemeChar = true
      · rw [if_pos hok] at h
        set sch : String := String.mk ((c0 :: cs0).map Char.toLower) with hdef
        by_cases hsp2 : sch = "http" ∨ sch = "https"
        · rw [if_pos hsp2] at h
          obtain ⟨hceq, _⟩ := splitAtFirst_some hsp
          have hq' : '?' ∉ rest := by
            intro m
            apply hq
            rw [hceq]
            exact List.mem_append_right _ (List.mem_cons_of_mem _ m)
          have hf' : '#' ∉ rest := by
            intro m
            apply hf
            rw [hceq]
            exact List.mem_append_right _ (List.mem_cons_of_mem _ m)
          obtain ⟨_, hu2, hu3, hu4, hu5, hu6⟩ := parseSpecial_shape h hq' hf'
          exact ⟨hu2, hu3, hu4, hu5, hu6⟩
        · rw [if_neg hsp2] at h
          split at h
          · simp at h
          · obtain rfl := Option.some.inj h
            exact absurd hsch hsp2
      · rw [if_neg hok] at h
        simp at h

/-- Auth-header injection never touches the request URL. -/
theorem add_auth_header_url (d : Dgraph) (req : Request) :
    (d.add_auth_header req).url = req.url := by
  unfold Dgraph.add_auth_header
  split
  · split
    · rfl
    · rfl
  · rfl

/-- Clearing the path of a special URL without query and fragment
serializes to scheme, authority and the single "/" of the empty path. -/
theorem setPath_toString {u : Url} (hc : u.cannotBeABase = false)
    (hq : u.query = none) (hf : u.fragment = none) :
    (u.set_path "").toString
      = u.scheme ++ "://" ++ u.host ++
        (match u.port with
         | some p => String.mk (':' :: natDigits p)
         | none => "") ++ "/" := by
  have h1 : u.set_path "" = { u with path := "/" } := by
    unfold Url.set_path
    rw [if_pos rfl, hc]
    simp
  rw [h1]
  unfold Url.toString
  dsimp only
  rw [hq, hf, hc]
  simp [String.append_empty]

theorem pushItem_zero (acc : Bool × String) (name : String) :
    pushItem acc 0 name = acc := by
  simp [pushItem]

/-- C1 counterexample: on the response envelope whose errors field is
present but empty, the operation fails (with an empty message list),
while the claim requires it to succeed with the data value. -/
theorem query_empty_errors_cex :
    Dgraph.queryResult ({ data := some 1, errors := some [] } : GqlResponse Nat)
      = Except.error [] ∧
    Dgraph.queryResult ({ data := some 1, errors := some [] } : GqlResponse Nat)
      ≠ Except.ok (some 1) :=
  ⟨rfl, fun h => nomatch h⟩

/-- C1 (amended): the query operation fails exactly when the errors field
is present (even when the list it carries is empty), carrying the full
message list in server order, and succeeds with the (possibly absent)
data value exactly when the errors field is absent. -/
theorem query_errors_spec {D : Type} (resp : GqlResponse D) :
    (resp.errors = none → Dgraph.queryResult resp = Except.ok resp.data) ∧
    (∀ errs, resp.errors = some errs →
      Dgraph.queryResult resp = Except.error (errs.map GqlError.message)) ∧
    ((∃ msgs, Dgraph.queryResult resp = Except.error msgs) ↔
      resp.errors ≠ none) := by
  rcases resp with ⟨d, errs⟩
  rcases errs with _ | errs
  · refine ⟨fun _ => rfl, ?_, ?_⟩
    · intro errs h
      cases h
    · constructor
      · rintro ⟨msgs, hm⟩
        simp [Dgraph.queryResult] at hm
      · intro hne
        exact absurd rfl hne
  · refine ⟨?_, ?_, ?_⟩
    · intro h
      cases h
    · intro errs2 h
      obtain rfl := Option.some.inj h
      rfl
    · constructor
      · intro _
        simp
      · intro _
        exact ⟨errs.map GqlError.message, rfl⟩

/-- C1 witness: three concrete errors (with a duplicate) surface in the
server's order, without reordering or deduplication. -/
theorem query_errors_spec_witness :
    Dgraph.queryResult
        (⟨some 7, some [⟨"bad"⟩, ⟨"worse"⟩, ⟨"bad"⟩]⟩ : GqlResponse Nat)
      = Except.error ["bad", "worse", "bad"] :=
  (query_errors_spec _).2.1 [⟨"bad"⟩, ⟨"worse"⟩, ⟨"bad"⟩] rfl

/-- C2: evaluating the code at the failing input "localhost": the first
parse fails (no scheme) and the failure propagates with no retry, even
though parsing with "http://" prepended (second conjunct) succeeds, so
the claimed retry would have produced a base URL. -/
theorem new_no_retry_on_parse_failure :
    Dgraph.new "localhost" none = none ∧
    Dgraph.new "http://localhost" none
      = some { base_url := "http://localhost/", auth_header := none } :=
  ⟨by decide, by decide⟩

/-- C3: the alter exchange succeeds exactly on the expected literal body
and fails on any other body, surfacing that body verbatim. -/
theorem alter_exact_match (resp : String) :
    Dgraph.alter resp
      = if resp = expectedAlterBody then Except.ok () else Except.error resp := by
  unfold Dgraph.alter
  by_cases h : resp = expectedAlterBody
  · rw [if_neg (not_not_intro h), if_pos h]
  · rw [if_pos h, if_neg h]

/-- C3 witness: the expected body succeeds; a semantically equivalent
JSON body with the keys in a different order fails, carrying the body. -/
theorem alter_exact_match_witness :
    Dgraph.alter expectedAlterBody = Except.ok () ∧
    Dgraph.alter "\x7b\"data\":\x7b\"message\":\"Done\",\"code\":\"Success\"\x7d\x7d"
      = Except.error
        "\x7b\"data\":\x7b\"message\":\"Done\",\"code\":\"Success\"\x7d\x7d" := by
  constructor
  · rw [alter_exact_match, if_pos rfl]
  · rw [alter_exact_match, if_neg (by decide)]

/-- C4: evaluating the code at the failing input "127.0.0.1:8080": a
scheme must start with an ASCII letter, so the first parse fails and the
failure propagates; normalization fails although the claim (and the
function's own doc comment) promise http://127.0.0.1:8080.  The second
conjunct shows the letter-initial case the claim's example uses does
work. -/
theorem new_digit_host_fails :
    Dgraph.new "127.0.0.1:8080" none = none ∧
    Dgraph.new "localhost:8080" none
      = some { base_url := "http://localhost:8080/", auth_header := none } :=
  ⟨by decide, by decide⟩

/-- C6: on a get-schema data value, a null schema member or one whose
string is empty after trimming prints "no schema"; a string with content
prints the trimmed schema text. -/
theorem get_schema_render_spec (data : Json) :
    ((data.get "getGQLSchema").get "schema" = Json.null →
      GetSchema.render data = "no schema") ∧
    (∀ s : String, (data.get "getGQLSchema").get "schema" = Json.str s →
      (rustTrim s = "" → GetSchema.render data = "no schema") ∧
      (rustTrim s ≠ "" → GetSchema.render data = rustTrim s)) := by
  constructor
  · intro h
    unfold GetSchema.render
    rw [h]
    rfl
  · intro s h
    unfold GetSchema.render
    rw [h]
    constructor
    · intro ht
      simp [Json.asStr, ht]
    · intro ht
      simp [Json.asStr, ht]

/-- C6 witness: a schema string with surrounding whitespace prints
trimmed. -/
theorem get_schema_render_witness :
    GetSchema.render (Json.obj [("getGQLSchema",
        Json.obj [("schema", Json.str "  type Query \x7b x \x7d  ")])])
      = "type Query \x7b x \x7d" := by
  have h := ((get_schema_render_spec (Json.obj [("getGQLSchema",
      Json.obj [("schema", Json.str "  type Query \x7b x \x7d  ")])])).2
    "  type Query \x7b x \x7d  " rfl).2 (by decide)
  exact h.trans (by decide)

/-- C7: no configured auth value, or one without a colon, leaves the
request untouched; a value with a colon splits once on the first colon
and sets exactly that header. -/
theorem add_auth_header_spec (d : Dgraph) (req : Request) :
    (d.auth_header = none → d.add_auth_header req = req) ∧
    (∀ ah : String, d.auth_header = some ah → ':' ∉ ah.data →
      d.add_auth_header req = req) ∧
    (∀ k v : String, d.auth_header = some (k ++ ":" ++ v) → ':' ∉ k.data →
      d.add_auth_header req
        = { req with headers := req.headers ++ [(k, v)] }) := by
  refine ⟨?_, ?_, ?_⟩
  · intro h
    unfold Dgraph.add_auth_header
    rw [h]
  · intro ah h hc
    have hsp : splitOnce ah ':' = none := by
      unfold splitOnce
      rw [splitAtFirst_eq_of_not_mem hc]
    unfold Dgraph.add_auth_header
    rw [h]
    dsimp only
    rw [hsp]
  · intro k v h hc
    have hd : (k ++ ":" ++ v).data = k.data ++ ':' :: v.data := by
      simp [string_data_append]
    have hsp : splitOnce (k ++ ":" ++ v) ':' = some (k, v) := by
      unfold splitOnce
      rw [hd, splitAtFirst_append _ _ hc]
    unfold Dgraph.add_auth_header
    rw [h]
    dsimp only
    rw [hsp]
    rfl

/-- C7 witness: "X-Key:secret" yields exactly the header X-Key: secret
on a fresh request. -/
theorem add_auth_header_witness :
    Dgraph.add_auth_header
        { base_url := "http://localhost:8080/", auth_header := some "X-Key:secret" }
        { url := "http://localhost:8080/admin", headers := [] }
      = { url := "http://localhost:8080/admin",
          headers := [("X-Key", "secret")] } := by
  have h := (add_auth_header_spec
      { base_url := "http://localhost:8080/", auth_header := some "X-Key:secret" }
      { url := "http://localhost:8080/admin", headers := [] }).2.2
    "X-Key" "secret" rfl (by decide)
  exact h

/-- C8: decoding a health record reads just the three modeled members
(with u64 bounds on uptime), prepending any unknown member leaves the
decode unchanged, and an array decodes whenever every record decodes. -/
theorem health_decode_spec :
    (∀ (fields : List (String × Json)) (a s : String) (n : Int),
      List.lookup "address" fields = some (Json.str a) →
      List.lookup "status" fields = some (Json.str s) →
      List.lookup "uptime" fields = some (Json.num n) →
      0 ≤ n → n < (2 : Int) ^ 64 →
      HealthResponse.fromJson (Json.obj fields)
        = some { address := a, status := s, uptime := n.toNat }) ∧
    (∀ (k : String) (v : Json) (fields : List (String × Json)),
      k ≠ "address" → k ≠ "status" → k ≠ "uptime" →
      HealthResponse.fromJson (Json.obj ((k, v) :: fields))
        = HealthResponse.fromJson (Json.obj fields)) ∧
    (∀ js : List Json, (∀ j ∈ js, (HealthResponse.fromJson j).isSome = true) →
      (healthVecFromJson (Json.arr js)).isSome = true) := by
  refine ⟨?_, ?_, ?_⟩
  · intro fields a s n ha hs hn h0 h64
    unfold HealthResponse.fromJson
    dsimp only
    rw [ha, hs, hn]
    dsimp only
    rw [if_pos ⟨h0, h64⟩]
  · intro k v fields hka hks hku
    have hba : ("address" == k) = false := beq_eq_false_iff_ne.mpr (Ne.symm hka)
    have hbs : ("status" == k) = false := beq_eq_false_iff_ne.mpr (Ne.symm hks)
    have hbu : ("uptime" == k) = false := beq_eq_false_iff_ne.mpr (Ne.symm hku)
    unfold HealthResponse.fromJson
    simp [List.lookup, hba, hbs, hbu]
  · intro js hjs
    induction js with
    | nil => rfl
    | cons j js ih =>
      have hj := hjs j (List.mem_cons_self _ _)
      have hrest := ih (fun x hx => hjs x (List.mem_cons_of_mem _ hx))
      unfold healthVecFromJson at hrest ⊢
      dsimp only at hrest ⊢
      unfold decodeHealthList
      rcases hfj : HealthResponse.fromJson j with _ | hrec
      · rw [hfj] at hj
        simp at hj
      · rcases hdl : decodeHealthList js with _ | hs
        · rw [hdl] at hrest
          simp at hrest
        · rfl

/-- C8 witness: a record carrying an unknown extra member decodes to
exactly the three modeled fields. -/
theorem health_decode_witness :
    HealthResponse.fromJson (Json.obj [("version", Json.str "v23.1"),
        ("address", Json.str "n1:8080"), ("status", Json.str "healthy"),
        ("uptime", Json.num 3661)])
      = some { address := "n1:8080", status := "healthy", uptime := 3661 } := by
  have h := (health_decode_spec).1 [("version", Json.str "v23.1"),
      ("address", Json.str "n1:8080"), ("status", Json.str "healthy"),
      ("uptime", Json.num 3661)] "n1:8080" "healthy" 3661 rfl rfl rfl
    (by decide) (by decide)
  exact h

/-- C9: the claim's concrete record formats to the expected line (3661
seconds rendered "1h 1m 1s"); every sub-day positive uptime renders with
the hours/minutes/seconds items alone; and every line has the shape
"address is status, uptime: duration". -/
theorem get_health_spec :
    GetHealth.output (Json.arr [Json.obj [("address", Json.str "n1:8080"),
        ("status", Json.str "healthy"), ("uptime", Json.num 3661)]])
      = some ["n1:8080 is healthy, uptime: 1h 1m 1s"] ∧
    (∀ n : Nat, 0 < n → n < 86400 → formatDuration n = hmsOnly n) ∧
    (∀ h : HealthResponse,
      healthLine h = h.address ++ " is " ++ h.status ++ ", uptime: "
        ++ formatDuration h.uptime) := by
  refine ⟨by decide, ?_, fun h => rfl⟩
  intro n h0 h1
  simp only [formatDuration, hmsOnly]
  rw [if_neg (by omega : ¬ n = 0)]
  rw [Nat.div_eq_of_lt (by omega : n < 31557600),
    Nat.mod_eq_of_lt (by omega : n < 31557600),
    Nat.div_eq_of_lt (by omega : n < 2630016),
    Nat.mod_eq_of_lt (by omega : n < 2630016),
    Nat.div_eq_of_lt h1, Nat.mod_eq_of_lt h1]
  simp only [pushItemPlural, pushItem_zero]

/-- C9 witness: the 3661-second instance of the sub-day rendering. -/
theorem get_health_spec_witness :
    0 < 3661 ∧ 3661 < 86400 ∧ formatDuration 3661 = hmsOnly 3661 :=
  ⟨by decide, by decide, get_health_spec.2.1 3661 (by decide) (by decide)⟩

/-- C5 counterexample: the claim's own example input normalizes with the
default https port 443 elided, not preserved; and on an input with a
query the query is preserved rather than discarded. -/
theorem default_port_elided_cex :
    Dgraph.new "https://example.com:443/graphql" none
      = some { base_url := "https://example.com/", auth_header := none } ∧
    Dgraph.new "https://example.com:443/graphql" none
      ≠ some { base_url := "https://example.com:443/", auth_header := none } ∧
    Dgraph.new "https://example.com/graphql?x=1" none
      = some { base_url := "https://example.com/?x=1", auth_header := none } ∧
    Dgraph.new "https://example.com/graphql?x=1" none
      ≠ some { base_url := "https://example.com/", auth_header := none } :=
  ⟨by decide, by decide, by decide, by decide⟩

/-- Evaluation of the URL parser on "https://host:port/path" inputs from
the covered fragment: the host is kept, the decimal port is kept unless
it is the https default 443 (then dropped), and the path remainder
starts at the slash. -/
theorem parse_https_host_port_path (host port path : String)
    (hhost : validHost host.data = true)
    (hp1 : port.data ≠ []) (hp2 : ∀ c ∈ port.data, c.isDigit = true)
    (hp3 : digitsToNat port.data < 65536)
    (hpa1 : '?' ∉ path.data) (hpa2 : '#' ∉ path.data) :
    Url.parse ("https://" ++ host ++ ":" ++ port ++ "/" ++ path)
      = some (mkUrl "https" host.data
          (if digitsToNat port.data = 443 then none
           else some (digitsToNat port.data))
          ('/' :: path.data) none none) := by
  obtain ⟨hvne, hvchars⟩ := validHost_spec hhost
  have hostsafe : ∀ c ∈ host.data,
      c ≠ '/' ∧ c ≠ '\\' ∧ c ≠ ':' ∧ c ≠ '@' ∧ c ≠ '?' ∧ c ≠ '#' :=
    fun c hc => hostChar_ne (hvchars c hc)
  have portsafe : ∀ c ∈ port.data,
      c ≠ '/' ∧ c ≠ '\\' ∧ c ≠ ':' ∧ c ≠ '@' ∧ c ≠ '?' ∧ c ≠ '#' :=
    fun c hc => isDigit_ne (hp2 c hc)
  have hdata : ("https://" ++ host ++ ":" ++ port ++ "/" ++ path).data
      = 'h' :: 't' :: 't' :: 'p' :: 's' :: ':' :: '/' :: '/'
        :: (host.data ++ ':' :: (port.data ++ '/' :: path.data)) := by
    have e1 : ("https://" : String).data = ['h','t','t','p','s',':','/','/'] := rfl
    have e2 : (":" : String).data = [':'] := rfl
    have e3 : ("/" : String).data = ['/'] := rfl
    simp [string_data_append, e1, e2, e3]
  have hfr : '#' ∉ ('/' :: '/'
      :: (host.data ++ ':' :: (port.data ++ '/' :: path.data))) := by
    intro m
    rcases List.mem_cons.mp m with h | m
    · exact absurd h (by decide)
    rcases List.mem_cons.mp m with h | m
    · exact absurd h (by decide)
    rcases List.mem_append.mp m with h | m
    · exact (hostsafe _ h).2.2.2.2.2 rfl
    rcases List.mem_cons.mp m with h | m
    · exact absurd h (by decide)
    rcases List.mem_append.mp m with h | m
    · exact (portsafe _ h).2.2.2.2.2 rfl
    rcases List.mem_cons.mp m with h | m
    · exact absurd h (by decide)
    · exact hpa2 m
  have hqr : '?' ∉ ('/' :: '/'
      :: (host.data ++ ':' :: (port.data ++ '/' :: path.data))) := by
    intro m
    rcases List.mem_cons.mp m with h | m
    · exact absurd h (by decide)
    rcases List.mem_cons.mp m with h | m
    · exact absurd h (by decide)
    rcases List.mem_append.mp m with h | m
    · exact (hostsafe _ h).2.2.2.2.1 rfl
    rcases List.mem_cons.mp m with h | m
    · exact absurd h (by decide)
    rcases List.mem_append.mp m with h | m
    · exact (portsafe _ h).2.2.2.2.1 rfl
    rcases List.mem_cons.mp m with h | m
    · exact absurd h (by decide)
    · exact hpa1 m
  have hdw : List.dropWhile isSlash ('/' :: '/'
        :: (host.data ++ ':' :: (port.data ++ '/' :: path.data)))
      = host.data ++ ':' :: (port.data ++ '/' :: path.data) := by
    rcases hhd : host.data with _ | ⟨c0, cs0⟩
    · exact absurd hhd hvne
    · have h0 := hostsafe c0 (by rw [hhd]; exact List.mem_cons_self _ _)
      have hns : isSlash c0 = false := by
        unfold isSlash
        simp [h0.1, h0.2.1]
      simp only [List.cons_append]
      rw [dropWhile_isSlash_slash, dropWhile_isSlash_slash,
        dropWhile_isSlash_cons_false _ hns]
  have hassoc : host.data ++ ':' :: (port.data ++ '/' :: path.data)
      = (host.data ++ ':' :: port.data) ++ '/' :: path.data := by
    simp
  have hsa : splitAuthority (host.data ++ ':' :: (port.data ++ '/' :: path.data))
      = (host.data ++ ':' :: port.data, '/' :: path.data) := by
    rw [hassoc]
    apply splitAuthority_append
    · intro x hx
      rcases List.mem_append.mp hx with h | h
      · rintro (rfl | rfl)
        · exact (hostsafe _ h).1 rfl
        · exact (hostsafe _ h).2.1 rfl
      · rcases List.mem_cons.mp h with h1 | h2
        · intro hor
          rw [h1] at hor
          rcases hor with h | h <;> exact absurd h (by decide)
        · rintro (rfl | rfl)
          · exact (portsafe _ h2).1 rfl
          · exact (portsafe _ h2).2.1 rfl
    · exact Or.inr ⟨'/', path.data, rfl, Or.inl rfl⟩
  have hat : ¬ '@' ∈ (host.data ++ ':' :: port.data) := by
    intro m
    rcases List.mem_append.mp m with h | h
    · exact (hostsafe _ h).2.2.2.1 rfl
    · rcases List.mem_cons.mp h with h1 | h2
      · exact absurd h1 (by decide)
      · exact (portsafe _ h2).2.2.2.1 rfl
  have hcolon : ':' ∉ host.data := fun m => (hostsafe _ m).2.2.1 rfl
  have hall : port.data.all Char.isDigit = true := by
    rw [List.all_eq_true]
    intro c hc
    simpa using hp2 c hc
  unfold Url.parse
  rw [hdata, parseList_https]
  unfold parseSpecial
  simp only [splitAtFirst_eq_of_not_mem hfr, splitAtFirst_eq_of_not_mem hqr,
    hdw, hsa, splitAtFirst_append _ _ hcolon, if_neg hat, if_pos hhost,
    if_neg hp1, if_pos hall, if_pos hp3]
  by_cases hn : digitsToNat port.data = 443
  · have hcond : defaultPort "https" = some (digitsToNat port.data) := by
      rw [hn]
      decide
    rw [if_pos hcond, if_pos hn]
  · have hcond : ¬ (defaultPort "https" = some (digitsToNat port.data)) := by
      intro hcon
      have h2 : (some 443 : Option Nat) = some (digitsToNat port.data) := hcon
      exact hn (Option.some.inj h2).symm
    rw [if_neg hcond, if_neg hn]

/-- C5 (amended): for every https URL with a covered host, an explicit
decimal port and a path free of query/fragment markers, normalization
preserves scheme and host and discards the path (the base path becomes
"/"); the port is preserved unless it equals the https default 443,
which is elided from the serialization. -/
theorem normalize_preserves_authority
    (host port path : String) (auth : Option String)
    (hhost : validHost host.data = true)
    (hp1 : port.data ≠ []) (hp2 : ∀ c ∈ port.data, c.isDigit = true)
    (hp3 : digitsToNat port.data < 65536)
    (hpa1 : '?' ∉ path.data) (hpa2 : '#' ∉ path.data) :
    Dgraph.new ("https://" ++ host ++ ":" ++ port ++ "/" ++ path) auth
      = some (Dgraph.mk
          (if digitsToNat port.data = 443 then "https://" ++ host ++ "/"
           else "https://" ++ host ++ ":"
             ++ String.mk (natDigits (digitsToNat port.data)) ++ "/")
          auth) := by
  have hparse := parse_https_host_port_path host port path hhost hp1 hp2 hp3
    hpa1 hpa2
  by_cases hn : digitsToNat port.data = 443
  · rw [if_pos hn] at hparse ⊢
    unfold Dgraph.new
    rw [hparse]
    dsimp only
    have hsch : (mkUrl "https" host.data none
        ('/' :: path.data) none none).scheme = "https" := rfl
    rw [if_pos (Or.inr hsch)]
    dsimp only
    rw [@setPath_toString
      (mkUrl "https" host.data none ('/' :: path.data) none none) rfl rfl rfl]
    dsimp only [mkUrl]
    rw [String.append_empty]
    rfl
  · rw [if_neg hn] at hparse ⊢
    have hstr : ("https" : String) ++ "://" ++ String.mk host.data
          ++ String.mk (':' :: natDigits (digitsToNat port.data)) ++ "/"
        = "https://" ++ host ++ ":"
          ++ String.mk (natDigits (digitsToNat port.data)) ++ "/" := by
      apply string_eq_of_data
      have e1 : ("https" : String).data = ['h','t','t','p','s'] := rfl
      have e2 : ("://" : String).data = [':','/','/'] := rfl
      have e3 : ("https://" : String).data = ['h','t','t','p','s',':','/','/'] := rfl
      have e4 : (":" : String).data = [':'] := rfl
      have e5 : ("/" : String).data = ['/'] := rfl
      simp [string_data_append, string_mk_data, e1, e2, e3, e4, e5]
    unfold Dgraph.new
    rw [hparse]
    dsimp only
    have hsch : (mkUrl "https" host.data (some (digitsToNat port.data))
        ('/' :: path.data) none none).scheme = "https" := rfl
    rw [if_pos (Or.inr hsch)]
    dsimp only
    rw [@setPath_toString (mkUrl "https" host.data
      (some (digitsToNat port.data)) ('/' :: path.data) none none) rfl rfl rfl]
    dsimp only [mkUrl]
    rw [hstr]

/-- C5 witness: a non-default https port is preserved and the path is
cleared. -/
theorem normalize_preserves_authority_witness :
    Dgraph.new "https://example.com:8443/graphql" none
      = some (Dgraph.mk "https://example.com:8443/" none) := by
  have h := normalize_preserves_authority "example.com" "8443" "graphql" none
    (by decide) (by decide) (by decide) (by decide) (by decide) (by decide)
  exact h.trans (by decide)

/-- The serialized base URL of a parsed special-scheme URL without query
and fragment decomposes as scheme, "://", host, optional decimal port,
and a final "/" preceded by a non-'/' character. -/
theorem base_url_of_shape (u : Url) (auth : Option String)
    (hsch : u.scheme = "http" ∨ u.scheme = "https")
    (hcb : u.cannotBeABase = false) (hq2 : u.query = none)
    (hf2 : u.fragment = none) (hh1 : u.host.data ≠ [])
    (hh2 : ∀ c ∈ u.host.data, hostChar c = true) :
    ∃ scheme host portStr : String,
      (scheme = "http" ∨ scheme = "https") ∧
      host.data ≠ [] ∧ (∀ c ∈ host.data, hostChar c = true) ∧
      (portStr = "" ∨ ∃ pc : List Char, portStr = String.mk (':' :: pc)
        ∧ pc ≠ [] ∧ ∀ c ∈ pc, c.isDigit = true) ∧
      (Dgraph.mk (u.set_path "").toString auth).base_url
        = scheme ++ "://" ++ host ++ portStr ++ "/" ∧
      (Dgraph.mk (u.set_path "").toString auth).base_url.data.getLast?
        = some '/' ∧
      (Dgraph.mk (u.set_path "").toString auth).base_url.data.dropLast.getLast?
        ≠ some '/' := by
  have hts := setPath_toString hcb hq2 hf2
  rcases hport : u.port with _ | p
  · rw [hport] at hts
    dsimp only at hts
    have hdata : (u.scheme ++ "://" ++ u.host ++ "" ++ "/").data
        = (u.scheme.data ++ "://".data ++ u.host.data) ++ ['/'] := by
      simp [string_data_append]
    refine ⟨u.scheme, u.host, "", hsch, hh1, hh2, Or.inl rfl, ?_, ?_, ?_⟩
    · exact hts
    · dsimp only
      rw [hts, hdata, List.getLast?_concat]
    · dsimp only
      rw [hts, hdata, List.dropLast_concat,
        List.getLast?_append_of_ne_nil _ hh1,
        List.getLast?_eq_getLast u.host.data hh1]
      intro hcon
      have heq := Option.some.inj hcon
      have hhc := hh2 _ (List.getLast_mem hh1)
      rw [heq] at hhc
      exact absurd hhc (by decide)
  · rw [hport] at hts
    dsimp only at hts
    obtain ⟨hnd1, hnd2⟩ := natDigits_spec p
    have hdata : (u.scheme ++ "://" ++ u.host
          ++ String.mk (':' :: natDigits p) ++ "/").data
        = (u.scheme.data ++ "://".data ++ u.host.data ++ ':' :: natDigits p)
          ++ ['/'] := by
      simp [string_data_append, string_mk_data]
    refine ⟨u.scheme, u.host, String.mk (':' :: natDigits p), hsch, hh1, hh2,
      Or.inr ⟨natDigits p, rfl, hnd1, hnd2⟩, ?_, ?_, ?_⟩
    · exact hts
    · dsimp only
      rw [hts, hdata, List.getLast?_concat]
    · dsimp only
      rw [hts, hdata, List.dropLast_concat,
        List.getLast?_append_of_ne_nil _ (by simp : (':' :: natDigits p) ≠ []),
        show (':' :: natDigits p) = [':'] ++ natDigits p from rfl,
        List.getLast?_append_of_ne_nil _ hnd1,
        List.getLast?_eq_getLast (natDigits p) hnd1]
      intro hcon
      have heq := Option.some.inj hcon
      have hdig := hnd2 _ (List.getLast_mem hnd1)
      rw [heq] at hdig
      exact absurd hdig (by decide)

/-- C10 (amended): for every input the normalizer accepts that carries no
query or fragment marker, the base URL is scheme ++ "://" ++ host ++ port
++ "/" — it ends with the single '/' of the cleared path — and every
request URL is the base followed by the endpoint; the three endpoint
constants carry no slash, so each request URL has the endpoint as its
sole path segment.  (When the input carries a query or fragment, the
base URL keeps it and the invariant fails: see the counterexample.) -/
theorem base_url_shape (url : String) (auth : Option String) (d : Dgraph)
    (hd : Dgraph.new url auth = some d)
    (hq : '?' ∉ url.data) (hf : '#' ∉ url.data) :
    ∃ scheme host portStr : String,
      (scheme = "http" ∨ scheme = "https") ∧
      host.data ≠ [] ∧ (∀ c ∈ host.data, hostChar c = true) ∧
      (portStr = "" ∨ ∃ pc : List Char, portStr = String.mk (':' :: pc)
        ∧ pc ≠ [] ∧ ∀ c ∈ pc, c.isDigit = true) ∧
      d.base_url = scheme ++ "://" ++ host ++ portStr ++ "/" ∧
      d.base_url.data.getLast? = some '/' ∧
      d.base_url.data.dropLast.getLast? ≠ some '/' ∧
      (∀ e : String, (d.post e).url = d.base_url ++ e) ∧
      (∀ e ∈ (["admin", "alter", "health"] : List String), '/' ∉ e.data) := by
  have hpost : ∀ e : String, (d.post e).url = d.base_url ++ e := by
    intro e
    unfold Dgraph.post
    rw [add_auth_header_url]
  have hep : ∀ e ∈ (["admin", "alter", "health"] : List String),
      '/' ∉ e.data := by
    intro e he
    simp only [List.mem_cons, List.not_mem_nil, or_false] at he
    rcases he with rfl | rfl | rfl <;> decide
  unfold Dgraph.new at hd
  rcases hp : Url.parse url with _ | parsed
  · rw [hp] at hd
    simp at hd
  · rw [hp] at hd
    dsimp only at hd
    by_cases hcond : parsed.scheme = "http" ∨ parsed.scheme = "https"
    · rw [if_pos hcond] at hd
      dsimp only at hd
      obtain rfl := Option.some.inj hd
      obtain ⟨hcb, hq2, hf2, hh1, hh2⟩ := parseList_shape hp hcond hq hf
      obtain ⟨s, h, ps, a1, a2, a3, a4, a5, a6, a7⟩ :=
        base_url_of_shape parsed auth hcond hcb hq2 hf2 hh1 hh2
      exact ⟨s, h, ps, a1, a2, a3, a4, a5, a6, a7, hpost, hep⟩
    · rw [if_neg hcond] at hd
      rcases hp2 : Url.parse ("http://" ++ url) with _ | p2
      · rw [hp2] at hd
        simp at hd
      · rw [hp2] at hd
        dsimp only at hd
        obtain rfl := Option.some.inj hd
        have hdata2 : ("http://" ++ url).data
            = 'h' :: 't' :: 't' :: 'p' :: ':' :: '/' :: '/' :: url.data := by
          rw [string_data_append]
          rfl
        have hp2' : Url.parseList
            ('h' :: 't' :: 't' :: 'p' :: ':' :: '/' :: '/' :: url.data)
            = some p2 := by
          rw [← hdata2]
          exact hp2
        rw [parseList_http] at hp2'
        have hq' : '?' ∉ ('/' :: '/' :: url.data) := by
          intro m
          rcases List.mem_cons.mp m with h1 | m
          · exact absurd h1 (by decide)
          rcases List.mem_cons.mp m with h1 | m
          · exact absurd h1 (by decide)
          exact hq m
        have hf' : '#' ∉ ('/' :: '/' :: url.data) := by
          intro m
          rcases List.mem_cons.mp m with h1 | m
          · exact absurd h1 (by decide)
          rcases List.mem_cons.mp m with h1 | m
          · exact absurd h1 (by decide)
          exact hf m
        obtain ⟨hps, hcb, hq2, hf2, hh1, hh2⟩ :=
          parseSpecial_shape hp2' hq' hf'
        obtain ⟨s, h, ps, a1, a2, a3, a4, a5, a6, a7⟩ :=
          base_url_of_shape p2 auth (Or.inl hps) hcb hq2 hf2 hh1 hh2
        exact ⟨s, h, ps, a1, a2, a3, a4, a5, a6, a7, hpost, hep⟩

/-- C10 witness: the decomposition at the default endpoint input. -/
theorem base_url_shape_witness :
    ∃ scheme host portStr : String,
      (scheme = "http" ∨ scheme = "https") ∧
      host.data ≠ [] ∧ (∀ c ∈ host.data, hostChar c = true) ∧
      (portStr = "" ∨ ∃ pc : List Char, portStr = String.mk (':' :: pc)
        ∧ pc ≠ [] ∧ ∀ c ∈ pc, c.isDigit = true) ∧
      (Dgraph.mk "http://localhost:8080/" none).base_url
        = scheme ++ "://" ++ host ++ portStr ++ "/" ∧
      (Dgraph.mk "http://localhost:8080/" none).base_url.data.getLast?
        = some '/' ∧
      (Dgraph.mk "http://localhost:8080/" none).base_url.data.dropLast.getLast?
        ≠ some '/' ∧
      (∀ e : String, ((Dgraph.mk "http://localhost:8080/" none).post e).url
        = (Dgraph.mk "http://localhost:8080/" none).base_url ++ e) ∧
      (∀ e ∈ (["admin", "alter", "health"] : List String), '/' ∉ e.data) :=
  base_url_shape "localhost:8080" none (Dgraph.mk "http://localhost:8080/" none)
    (by decide) (by decide) (by decide)

/-- C10 counterexample: an accepted input carrying a query yields a base
URL that keeps the query, does not end with '/', and breaks the
concatenated request URL. -/
theorem base_url_query_leak_cex :
    Dgraph.new "localhost:8080?x" none
      = some { base_url := "http://localhost:8080/?x", auth_header := none } ∧
    "http://localhost:8080/?x".data.getLast? = some 'x' ∧
    (Dgraph.post { base_url := "http://localhost:8080/?x", auth_header := none }
        "admin").url
      = "http://localhost:8080/?xadmin" :=
  ⟨by decide, by decide, by decide⟩

end DgraphAdmin
